import Mathlib

/-!
Verification of the critical-path / BFS / centrality analytics of the
rubber-to-metal manufacturing workflow script.

The script builds a directed task graph (node attribute `duration`),
finds the critical path by negating durations and running a
Dijkstra-style shortest-path routine, performs a BFS traversal, and
ranks nodes by centrality.  The definitions below are a shallow
embedding of that code: graphs are association lists, the library
routines (`dijkstra_path`, `bfs_edges`, `betweenness_centrality`) are
embedded following their documented semantics (binary-heap Dijkstra
with insertion-order tie-breaking and a contradictory-paths check,
queue-based BFS tree edges, shortest-path betweenness).
-/

/-- A directed graph as built by the script: nodes carry a `duration`
attribute, edges are ordered pairs of node names. -/
structure DiGraph where
  nodes : List (String × Int)
  edges : List (String × String)
deriving DecidableEq, Repr

/-- The node names of a graph, in insertion order. -/
def nodeNames (g : DiGraph) : List String := g.nodes.map Prod.fst

/-- The `duration` attribute of node `u` (last write wins, matching
repeated `add_node` calls overwriting the attribute). -/
def durOf (g : DiGraph) (u : String) : Int :=
  (((g.nodes.filter (fun p => p.1 = u)).getLast?).map Prod.snd).getD 0

/-- Sum of the `duration` attributes along a list of task names, as in
`sum(G.nodes[task]['duration'] for task in path)`. -/
def totalDur (g : DiGraph) (p : List String) : Int :=
  (p.map (fun t => durOf g t)).sum

/-- A directed graph whose edges carry an optional `weight` attribute
(absent until the script's weight-assignment loop writes it). -/
structure WGraph where
  nodes : List (String × Int)
  wedges : List (String × String × Option Int)
deriving DecidableEq, Repr

/-- Model of `G.copy()`: same nodes and durations, same edges, no `weight`
attribute yet. -/
def copyG (g : DiGraph) : WGraph :=
  ⟨g.nodes, g.edges.map (fun e => (e.1, e.2, (none : Option Int)))⟩

/-- The body of `for u, v, data in G_neg.edges(data=True):
data['weight'] = -G.nodes[u]['duration']`, run over the remaining
edges: each edge's weight attribute is set to the negated duration of
its source, read from the original graph `main`. -/
def weightLoop (main : DiGraph) :
    List (String × String × Option Int) → List (String × String × Option Int)
  | [] => []
  | e :: rest => (e.1, e.2.1, some (-(durOf main e.1))) :: weightLoop main rest

/-- The same loop with the caller's graph object threaded through as
state: the pair returned is (the caller's graph after the loop, the
rewritten edges of the copy). -/
def weightLoopSt (main : DiGraph) (done : List (String × String × Option Int)) :
    List (String × String × Option Int) →
    DiGraph × List (String × String × Option Int)
  | [] => (main, done)
  | e :: rest =>
    weightLoopSt main (done ++ [(e.1, e.2.1, some (-(durOf main e.1)))]) rest

/-- Step 1 of `find_critical_path`: copy the graph and give every edge
`(u, v)` the weight `-G.nodes[u]['duration']`. -/
def negatedCopy (g : DiGraph) : WGraph :=
  ⟨(copyG g).nodes, weightLoop g (copyG g).wedges⟩

/-- Forget the weights of a weighted graph's edges. -/
def plainEdges (w : WGraph) : List (String × String) :=
  w.wedges.map (fun e => (e.1, e.2.1))

/-- The weighted successors of `v`: targets and weights of the edges
leaving `v`, in edge-insertion order (networkx adjacency order); a
missing weight attribute defaults to `1`, as in networkx's weight
function `data.get('weight', 1)`. -/
def wsuccs (w : WGraph) (v : String) : List (String × Int) :=
  (w.wedges.filter (fun e => e.1 = v)).map (fun e => (e.2.1, e.2.2.getD 1))

/-- The (unweighted) successors of `v` in an edge list. -/
def succsOf (es : List (String × String)) (v : String) : List String :=
  (es.filter (fun e => e.1 = v)).map (fun e => e.2)

/-- First-match association-list lookup (a Python `dict`, newest entry
consed at the front). -/
def alookup {α : Type} (l : List (String × α)) (k : String) : Option α :=
  (l.find? (fun p => p.1 = k)).map Prod.snd

/-- Strict order on heap entries `(distance, insertion counter, node)`:
the heap pops the lexicographically least `(distance, counter)` pair,
so ties in distance are broken by insertion order. -/
def keyLt (a b : Int × Nat × String) : Bool :=
  decide (a.1 < b.1 ∨ (a.1 = b.1 ∧ a.2.1 < b.2.1))

/-- The least entry (by `keyLt`) of `best :: rest`. -/
def minEntry : (Int × Nat × String) → List (Int × Nat × String) → (Int × Nat × String)
  | best, [] => best
  | best, x :: rest => minEntry (if keyLt x best then x else best) rest

/-- Pop the least entry of the fringe (the `heappop` of the binary
heap), returning it together with the remaining fringe. -/
def popMin (fringe : List (Int × Nat × String)) :
    Option ((Int × Nat × String) × List (Int × Nat × String)) :=
  match fringe with
  | [] => none
  | x :: rest =>
    let m := minEntry x rest
    some (m, fringe.erase m)

/-- Relax all out-edges of the just-finalized node (distance `d`, stored
path `pv`): for each successor `(u, w)`, if `u` is finalized a strictly
shorter route raises the "Contradictory paths found" error (`none`);
otherwise an improvement updates `seen`, records the candidate path and
pushes a fresh heap entry with the next counter value. -/
def relax (dist : List (String × Int)) (d : Int) (pv : List String) :
    List (String × Int) → List (String × Int) → List (String × List String) →
    List (Int × Nat × String) → Nat →
    Option (List (String × Int) × List (String × List String) ×
            List (Int × Nat × String) × Nat)
  | [], seen, paths, fringe, c => some (seen, paths, fringe, c)
  | (u, w) :: rest, seen, paths, fringe, c =>
    let vu := d + w
    match alookup dist u with
    | some du =>
      if vu < du then none
      else relax dist d pv rest seen paths fringe c
    | none =>
      let improves : Bool :=
        match alookup seen u with
        | none => true
        | some su => decide (vu < su)
      if improves then
        relax dist d pv rest ((u, vu) :: seen) ((u, pv ++ [u]) :: paths)
          (fringe ++ [(vu, c, u)]) (c + 1)
      else relax dist d pv rest seen paths fringe c

/-- Result of the main Dijkstra loop. -/
inductive LoopRes where
  | done (dist : List (String × Int)) (paths : List (String × List String))
  | contra
  | fuelOut
deriving DecidableEq, Repr

/-- The main loop of `_dijkstra_multisource`: pop the least fringe
entry; skip it if its node is already finalized; otherwise finalize the
node, stop if it is the target, and relax its out-edges. -/
def dijkstraLoop (w : WGraph) (target : String) :
    Nat → List (String × Int) → List (String × Int) →
    List (String × List String) → List (Int × Nat × String) → Nat → LoopRes
  | 0, _, _, _, _, _ => .fuelOut
  | fuel + 1, dist, seen, paths, fringe, c =>
    match popMin fringe with
    | none => .done dist paths
    | some (e, rest) =>
      let d := e.1
      let v := e.2.2
      if (alookup dist v).isSome then
        dijkstraLoop w target fuel dist seen paths rest c
      else
        let dist' := (v, d) :: dist
        if v = target then .done dist' paths
        else
          match relax dist' d ((alookup paths v).getD []) (wsuccs w v)
              seen paths rest c with
          | none => .contra
          | some (seen', paths', fringe', c') =>
            dijkstraLoop w target fuel dist' seen' paths' fringe' c'

/-- Result of `nx.dijkstra_path`. -/
inductive PathResult where
  | found (p : List String)
  | noPath
  | nodeNotFound
  | contra
  | outOfFuel
deriving DecidableEq, Repr

/-- Model of `nx.dijkstra_path(W, source, target, weight='weight')`: a trivial
path when source equals target, `NodeNotFound` when the source is
absent, otherwise the Dijkstra loop followed by the
`(dist[target], paths[target])` lookup whose `KeyError` becomes
`NetworkXNoPath`. -/
def dijkstra_path (w : WGraph) (source target : String) : PathResult :=
  if source = target then .found [source]
  else if source ∈ w.nodes.map Prod.fst then
    match dijkstraLoop w target (w.wedges.length + 2) [] [(source, 0)]
        [(source, [source])] [(0, 0, source)] 1 with
    | .fuelOut => .outOfFuel
    | .contra => .contra
    | .done dist paths =>
      match alookup dist target with
      | none => .noPath
      | some _ =>
        match alookup paths target with
        | some p => .found p
        | none => .noPath
  else .nodeNotFound

/-- Result of `find_critical_path`. -/
inductive CPResult where
  | ok (p : List String) (total : Int)
  | noPath
  | nodeNotFound
  | contra
  | outOfFuel
deriving DecidableEq, Repr

/-- Model of `find_critical_path(G)`: negate durations into edge weights on a
copy, run `nx.dijkstra_path(G_neg, 'Start', 'End')`, and sum the
original durations along the returned path. -/
def find_critical_path (g : DiGraph) : CPResult :=
  let gneg := negatedCopy g
  match dijkstra_path gneg "Start" "End" with
  | .found p => .ok p (totalDur g p)
  | .noPath => .noPath
  | .nodeNotFound => .nodeNotFound
  | .contra => .contra
  | .outOfFuel => .outOfFuel

/-- Model of `find_critical_path(G)` with the caller's graph object threaded
through as state: every statement of the function body is replayed —
the copy, the weight loop writing the copy's edge data while reading
the caller's object, the shortest-path call and the duration sum — and
the second component is the caller's graph object as the function
leaves it. -/
def find_critical_path_state (g : DiGraph) : CPResult × DiGraph :=
  let c := copyG g
  let st := weightLoopSt g [] c.wedges
  let gneg : WGraph := ⟨c.nodes, st.2⟩
  let res : CPResult :=
    match dijkstra_path gneg "Start" "End" with
    | .found p => .ok p (totalDur st.1 p)
    | .noPath => .noPath
    | .nodeNotFound => .nodeNotFound
    | .contra => .contra
    | .outOfFuel => .outOfFuel
  (res, st.1)

/-- The literal task list of the script (name, duration). -/
def tasks : List (String × Int) :=
  [("Start", 0),
   ("Create Work Order", 2),
   ("Process Rubber Blending", 10),
   ("Mill Rubber", 8),
   ("Calendar Rubber Sheets", 14),
   ("Sandblast Parts", 10),
   ("Wash Parts for Chemical Treatment", 2),
   ("Chemical Treatment Group 1", 6),
   ("Chemical Treatment Group 2", 10),
   ("Chemical Treatment Group 3", 4),
   ("Spray Treatment", 8),
   ("Assemble Components for Injection Molding", 8),
   ("Clean Outer & Inner Members", 4),
   ("Special Adhesive Treatment", 12),
   ("Special Sandblast", 6),
   ("Wash Parts OM & IM", 2),
   ("Injection Molding Operation", 18),
   ("Bond Testing", 6),
   ("Paint & Finishing", 14),
   ("Final Inspection", 6),
   ("Packaging", 6),
   ("Shipping", 2),
   ("End", 0)]

/-- The literal dependency edge list of the script. -/
def edges : List (String × String) :=
  [("Start", "Create Work Order"),
   ("Create Work Order", "Process Rubber Blending"),
   ("Create Work Order", "Sandblast Parts"),
   ("Create Work Order", "Clean Outer & Inner Members"),
   ("Process Rubber Blending", "Mill Rubber"),
   ("Mill Rubber", "Calendar Rubber Sheets"),
   ("Calendar Rubber Sheets", "Assemble Components for Injection Molding"),
   ("Sandblast Parts", "Wash Parts for Chemical Treatment"),
   ("Wash Parts for Chemical Treatment", "Chemical Treatment Group 1"),
   ("Wash Parts for Chemical Treatment", "Chemical Treatment Group 2"),
   ("Wash Parts for Chemical Treatment", "Chemical Treatment Group 3"),
   ("Chemical Treatment Group 1", "Spray Treatment"),
   ("Chemical Treatment Group 2", "Spray Treatment"),
   ("Chemical Treatment Group 3", "Spray Treatment"),
   ("Spray Treatment", "Assemble Components for Injection Molding"),
   ("Clean Outer & Inner Members", "Special Adhesive Treatment"),
   ("Special Adhesive Treatment", "Special Sandblast"),
   ("Special Sandblast", "Wash Parts OM & IM"),
   ("Wash Parts OM & IM", "Assemble Components for Injection Molding"),
   ("Assemble Components for Injection Molding", "Injection Molding Operation"),
   ("Injection Molding Operation", "Bond Testing"),
   ("Bond Testing", "Paint & Finishing"),
   ("Paint & Finishing", "Final Inspection"),
   ("Final Inspection", "Packaging"),
   ("Packaging", "Shipping"),
   ("Shipping", "End")]

/-- The hardcoded manufacturing graph `G` of the script. -/
def G : DiGraph := ⟨tasks, edges⟩

/-- One step of the BFS discovery: scan the successor list of the
dequeued node `v`, recording a tree edge, marking visited and enqueuing
each not-yet-visited successor. -/
def bfsVisit (v : String) :
    List String → List String → List (String × String) → List String →
    List String × List (String × String) × List String
  | [], vis, acc, q => (vis, acc, q)
  | u :: rest, vis, acc, q =>
    if u ∈ vis then bfsVisit v rest vis acc q
    else bfsVisit v rest (u :: vis) (acc ++ [(v, u)]) (q ++ [u])

/-- The BFS queue loop: dequeue a node, discover its successors, repeat. -/
def bfsLoop (es : List (String × String)) :
    Nat → List String → List (String × String) → List String →
    List (String × String)
  | 0, _, acc, _ => acc
  | _ + 1, _, acc, [] => acc
  | fuel + 1, vis, acc, v :: q =>
    let r := bfsVisit v (succsOf es v) vis acc q
    bfsLoop es fuel r.1 r.2.1 r.2.2

/-- Model of `list(nx.bfs_edges(G, start))`: the tree edges of a breadth-first
search from `start`, in discovery order. -/
def bfs_edges (g : DiGraph) (source : String) : List (String × String) :=
  bfsLoop g.edges (g.edges.length + 2) [source] [] [source]

/-- Model of `perform_bfs(G, start)` without its printing: the list of BFS edges. -/
def perform_bfs (g : DiGraph) (start : String) : List (String × String) :=
  bfs_edges g start

/-- A directed walk along an edge list, recorded as the list of visited
nodes (built by appending, the way the Dijkstra routine extends paths). -/
inductive Walk (es : List (String × String)) : String → String → List String → Prop
  | single (a : String) : Walk es a a [a]
  | snoc {s v u : String} {p : List String} :
      Walk es s v p → (v, u) ∈ es → Walk es s u (p ++ [u])

/-- Node `t` is reachable from node `s` by directed edges. -/
def Reach (es : List (String × String)) (s t : String) : Prop :=
  Relation.ReflTransGen (fun a b => (a, b) ∈ es) s t

/-- The graph contains a directed cycle: a closed walk using at least
one edge. -/
def HasCycle (g : DiGraph) : Prop :=
  ∃ a p, Walk g.edges a a p ∧ 2 ≤ p.length

/-- The graph is acyclic, witnessed by a topological numbering. -/
def IsAcyclic (g : DiGraph) : Prop :=
  ∃ ord : String → Nat, ∀ e ∈ g.edges, ord e.1 < ord e.2

/-- All simple directed paths (node lists) from `cur` to `target`
avoiding `visited`, by depth-first search with `fuel` bounding the
number of edges used. -/
def simplePathsAux (es : List (String × String)) :
    Nat → String → String → List String → List (List String)
  | 0, cur, target, _ => if cur = target then [[cur]] else []
  | fuel + 1, cur, target, visited =>
    if cur = target then [[cur]]
    else
      ((succsOf es cur).filter (fun u => decide (u ∉ visited))).flatMap
        (fun u => (simplePathsAux es fuel u target (cur :: visited)).map
          (fun p => cur :: p))

/-- All simple directed paths from `s` to `t` in the graph (the node
count bounds the length of a simple path). -/
def simplePaths (g : DiGraph) (s t : String) : List (List String) :=
  simplePathsAux g.edges (nodeNames g).length s t []

/-- The brute-force optimum: the maximum, over all directed paths from
`s` to `t`, of the sum of the durations of the tasks on the path. -/
def maxPathDuration (g : DiGraph) (s t : String) : Option Int :=
  ((simplePaths g s t).map (fun p => totalDur g p)).max?

/-- The shortest (fewest-node) paths from `s` to `t`. -/
def shortestPaths (g : DiGraph) (s t : String) : List (List String) :=
  let ps := simplePaths g s t
  match (ps.map List.length).min? with
  | none => []
  | some m => ps.filter (fun p => p.length = m)

/-- The number of shortest paths from `s` to `t`. -/
def sigma (g : DiGraph) (s t : String) : Nat := (shortestPaths g s t).length

/-- The number of shortest paths from `s` to `t` passing through `v`. -/
def sigmaThrough (g : DiGraph) (s t v : String) : Nat :=
  ((shortestPaths g s t).filter (fun p => decide (v ∈ p))).length

/-- The contribution of the ordered pair `(s, t)` to the betweenness of
`v`: the fraction of shortest `s`→`t` paths passing through `v`, for
pairs of nodes distinct from each other and from `v`. -/
def pairDep (g : DiGraph) (v s t : String) : ℚ :=
  if s ≠ t ∧ s ≠ v ∧ t ≠ v ∧ sigma g s t ≠ 0 then
    (sigmaThrough g s t v : ℚ) / (sigma g s t : ℚ)
  else 0

/-- Modelled from the spec: `nx.betweenness_centrality` is library code
absent from this repository; per the spec it is the "fraction of
shortest paths between all other node pairs that pass through a given
node" — the sum of per-pair fractions over ordered pairs, normalized by
the number `(n-1)(n-2)` of such pairs in a directed graph. -/
def betweenness_centrality (g : DiGraph) (v : String) : ℚ :=
  let names := nodeNames g
  let n := names.length
  let total := (names.flatMap (fun s => names.map (fun t => pairDep g v s t))).sum
  if 2 < n then total / (((n : ℚ) - 1) * ((n : ℚ) - 2)) else total

/-- A single directed linear chain of tasks with the given names. -/
def chainGraph (ns : List String) : DiGraph :=
  ⟨ns.map (fun s => (s, 0)), ns.zip ns.tail⟩

/-- A valid acyclic task graph on which the Dijkstra-based finder stops
at the target too early: the heap pops `End` (pushed at distance −10
via `A`) before the cheaper route through `B` and `C` is explored. -/
def gA : DiGraph :=
  ⟨[("Start", 0), ("A", 10), ("B", 1), ("C", 100), ("End", 0)],
   [("Start", "A"), ("Start", "B"), ("A", "End"), ("B", "C"), ("C", "End")]⟩

/-- A cyclic graph (cycle `B → C → B`) on which the finder nevertheless
returns the path `Start → End`. -/
def gCyc : DiGraph :=
  ⟨[("Start", 0), ("End", 0), ("B", 0), ("C", 0)],
   [("Start", "End"), ("B", "C"), ("C", "B")]⟩

/-- A graph whose `End` is unreachable from `Start` and on which the
finder hits the contradictory-paths check before exhausting the fringe:
`D` is finalized at −10 via `A`, then the route through `C` reaches `D`
at −101. -/
def gUnreach : DiGraph :=
  ⟨[("Start", 0), ("A", 10), ("B", 1), ("C", 100), ("D", 0), ("End", 0)],
   [("Start", "A"), ("Start", "B"), ("A", "D"), ("B", "C"), ("C", "D")]⟩

/-- The five-task chain used against the betweenness claim. -/
def chain5 : DiGraph := chainGraph ["A", "B", "C", "D", "E"]

/-- The critical path of the hardcoded dataset. -/
def criticalPathTasks : List String :=
  ["Start", "Create Work Order", "Process Rubber Blending", "Mill Rubber",
   "Calendar Rubber Sheets", "Assemble Components for Injection Molding",
   "Injection Molding Operation", "Bond Testing", "Paint & Finishing",
   "Final Inspection", "Packaging", "Shipping", "End"]

/-- A graph with no edge at all: `End` is unreachable from `Start`. -/
def gNoPath : DiGraph := ⟨[("Start", 0), ("End", 0)], []⟩

/-- A three-task line used as a witness input. -/
def gLine : DiGraph :=
  ⟨[("Start", 0), ("Mid", 5), ("End", 0)], [("Start", "Mid"), ("Mid", "End")]⟩

/-- A topological numbering of `gLine`. -/
def ordLine (s : String) : Nat :=
  if s = "Start" then 0 else if s = "Mid" then 1 else 2


/-- Invariant of the Dijkstra `paths` dictionary: every stored path is
a directed walk from the source to its key. -/
def PathsInv (es : List (String × String)) (src : String)
    (paths : List (String × List String)) : Prop :=
  ∀ u q, alookup paths u = some q → Walk es src u q

/-- Invariant of the Dijkstra fringe: every queued node has a stored
path. -/
def FringeInv (paths : List (String × List String))
    (fringe : List (Int × Nat × String)) : Prop :=
  ∀ t ∈ fringe, (alookup paths t.2.2).isSome

/-- The number of edges whose source is not yet finalized: together
with the fringe length this bounds the remaining loop iterations. -/
def pendCount (w : WGraph) (dist : List (String × Int)) : Nat :=
  (w.wedges.filter (fun e => (alookup dist e.1).isNone)).length

/-- The out-degree of `v` in the weighted graph. -/
def outdegCount (w : WGraph) (v : String) : Nat :=
  (w.wedges.filter (fun e => e.1 = v)).length

/-! ### Association list and heap lemmas -/

theorem alookup_cons {α : Type} (k k' : String) (a : α) (l : List (String × α)) :
    alookup ((k, a) :: l) k' = if k = k' then some a else alookup l k' := by
  by_cases h : k = k'
  · subst h; simp [alookup]
  · simp [alookup, List.find?, h]

theorem minEntry_eq_or_mem :
    ∀ (l : List (Int × Nat × String)) (x), minEntry x l = x ∨ minEntry x l ∈ l
  | [], x => Or.inl rfl
  | y :: t, x => by
    simp only [minEntry]
    rcases minEntry_eq_or_mem t (if keyLt y x then y else x) with h | h
    · rw [h]
      by_cases hk : keyLt y x
      · simp [hk]
      · simp [hk]
    · exact Or.inr (List.mem_cons_of_mem _ h)

theorem popMin_mem {f : List (Int × Nat × String)} {e rest}
    (h : popMin f = some (e, rest)) : e ∈ f := by
  cases f with
  | nil => simp [popMin] at h
  | cons x t =>
    simp only [popMin, Option.some.injEq, Prod.mk.injEq] at h
    rcases h with ⟨he, _⟩
    rcases minEntry_eq_or_mem t x with h' | h'
    · rw [← he, h']; exact List.mem_cons_self _ _
    · rw [← he]; exact List.mem_cons_of_mem _ h'

theorem popMin_rest_eq {f : List (Int × Nat × String)} {e rest}
    (h : popMin f = some (e, rest)) : rest = f.erase e := by
  cases f with
  | nil => simp [popMin] at h
  | cons x t =>
    simp only [popMin, Option.some.injEq, Prod.mk.injEq] at h
    rw [← h.2, ← h.1]

theorem popMin_rest_length {f : List (Int × Nat × String)} {e rest}
    (h : popMin f = some (e, rest)) : rest.length + 1 = f.length := by
  rw [popMin_rest_eq h]
  have := List.length_erase_of_mem (popMin_mem h)
  have hpos : 0 < f.length := List.length_pos.mpr (List.ne_nil_of_mem (popMin_mem h))
  omega

theorem popMin_rest_subset {f : List (Int × Nat × String)} {e rest}
    (h : popMin f = some (e, rest)) : rest ⊆ f := by
  rw [popMin_rest_eq h]
  intro x hx
  exact List.mem_of_mem_erase hx

/-! ### Walk lemmas -/

theorem Walk.ne_nil {es : List (String × String)} {s t : String} {p : List String}
    (h : Walk es s t p) : p ≠ [] := by
  induction h with
  | single => simp
  | snoc hw he ih => simp

theorem Walk.head_eq {es : List (String × String)} {s t : String} {p : List String}
    (h : Walk es s t p) : p.head? = some s := by
  induction h with
  | single => rfl
  | @snoc v u p hw he ih =>
    cases p with
    | nil => simp at ih
    | cons a as => simpa using ih

theorem Walk.last_eq {es : List (String × String)} {s t : String} {p : List String}
    (h : Walk es s t p) : p.getLast? = some t := by
  induction h with
  | single => rfl
  | snoc hw he ih => simp [List.getLast?_concat]

theorem Walk.chain_edges {es : List (String × String)} {s t : String} {p : List String}
    (h : Walk es s t p) : List.Chain' (fun a b => (a, b) ∈ es) p := by
  induction h with
  | single => simp
  | @snoc v u p hw he ih =>
    rw [List.chain'_append]
    refine ⟨ih, by simp, ?_⟩
    intro x hx y hy
    rw [Walk.last_eq hw] at hx
    simp at hx hy
    subst hx
    subst hy
    exact he

theorem Walk.reach {es : List (String × String)} {s t : String} {p : List String}
    (h : Walk es s t p) : Reach es s t := by
  induction h with
  | single => exact Relation.ReflTransGen.refl
  | snoc hw he ih => exact Relation.ReflTransGen.tail ih he

/-! ### Successor lemmas -/

theorem mem_succsOf {es : List (String × String)} {v u : String} :
    u ∈ succsOf es v ↔ (v, u) ∈ es := by
  constructor
  · intro h
    simp only [succsOf, List.mem_map, List.mem_filter] at h
    rcases h with ⟨e, ⟨he, hv⟩, hu⟩
    have h1 : e.1 = v := by simpa using hv
    have : e = (v, u) := by
      cases e; simp_all
    rwa [this] at he
  · intro h
    simp only [succsOf, List.mem_map, List.mem_filter]
    exact ⟨(v, u), ⟨h, by simp⟩, rfl⟩

theorem mem_wsuccs {w : WGraph} {v u : String} {wt : Int}
    (h : (u, wt) ∈ wsuccs w v) : (v, u) ∈ plainEdges w := by
  simp only [wsuccs, List.mem_map, List.mem_filter] at h
  rcases h with ⟨e, ⟨he, hv⟩, hu⟩
  have h1 : e.1 = v := by simpa using hv
  simp only [plainEdges, List.mem_map]
  refine ⟨e, he, ?_⟩
  have h2 : e.2.1 = u := by
    have := congrArg Prod.fst hu
    simpa using this
  rw [h1, h2]

theorem wsuccs_length (w : WGraph) (v : String) :
    (wsuccs w v).length = (w.wedges.filter (fun e => e.1 = v)).length := by
  simp [wsuccs]

/-! ### The transformed graph -/

theorem weightLoop_eq_map (m : DiGraph) :
    ∀ es : List (String × String × Option Int),
      weightLoop m es = es.map (fun e => (e.1, e.2.1, some (-(durOf m e.1))))
  | [] => rfl
  | e :: rest => by
    simp [weightLoop, weightLoop_eq_map m rest]

theorem weightLoopSt_eq (m : DiGraph) :
    ∀ (todo done : List (String × String × Option Int)),
      weightLoopSt m done todo = (m, done ++ weightLoop m todo)
  | [], done => by simp [weightLoopSt, weightLoop]
  | e :: rest, done => by
    simp [weightLoopSt, weightLoop, weightLoopSt_eq m rest]

theorem negatedCopy_wedges (g : DiGraph) :
    (negatedCopy g).wedges =
      g.edges.map (fun e => (e.1, e.2, some (-(durOf g e.1)))) := by
  simp [negatedCopy, copyG, weightLoop_eq_map, List.map_map, Function.comp]

theorem plainEdges_negatedCopy (g : DiGraph) :
    plainEdges (negatedCopy g) = g.edges := by
  rw [plainEdges, negatedCopy_wedges, List.map_map]
  have : ((fun e : String × String × Option Int => (e.1, e.2.1)) ∘
      fun e : String × String => (e.1, e.2, some (-(durOf g e.1)))) = id := by
    funext e; cases e; rfl
  rw [this, List.map_id]

/-! ### BFS invariants -/

theorem bfsVisit_inv (v : String) :
    ∀ (succ vis : List String) (acc : List (String × String)) (q : List String),
      (acc.map Prod.snd).Nodup →
      (∀ x ∈ acc.map Prod.snd, x ∈ vis) →
      ((bfsVisit v succ vis acc q).2.1.map Prod.snd).Nodup ∧
      (∀ x ∈ (bfsVisit v succ vis acc q).2.1.map Prod.snd,
        x ∈ (bfsVisit v succ vis acc q).1) ∧
      (∀ x ∈ vis, x ∈ (bfsVisit v succ vis acc q).1)
  | [], vis, acc, q => by
    intro h1 h2
    exact ⟨h1, h2, fun x hx => hx⟩
  | u :: rest, vis, acc, q => by
    intro h1 h2
    by_cases hu : u ∈ vis
    · simp only [bfsVisit, if_pos hu]
      exact bfsVisit_inv v rest vis acc q h1 h2
    · simp only [bfsVisit, if_neg hu]
      have h1' : ((acc ++ [(v, u)]).map Prod.snd).Nodup := by
        have hnm : u ∉ acc.map Prod.snd := fun hmem => hu (h2 u hmem)
        simp [List.nodup_append, h1, hnm]
      have h2' : ∀ x ∈ (acc ++ [(v, u)]).map Prod.snd, x ∈ u :: vis := by
        intro x hx
        simp only [List.map_append, List.mem_append] at hx
        rcases hx with hx | hx
        · exact List.mem_cons_of_mem _ (h2 x hx)
        · simp at hx
          simp [hx]
      have := bfsVisit_inv v rest (u :: vis) (acc ++ [(v, u)]) (q ++ [u]) h1' h2'
      exact ⟨this.1, this.2.1, fun x hx =>
        this.2.2 x (List.mem_cons_of_mem _ hx)⟩

theorem bfsLoop_inv (es : List (String × String)) :
    ∀ (fuel : Nat) (vis : List String) (acc : List (String × String))
      (q : List String),
      (acc.map Prod.snd).Nodup →
      (∀ x ∈ acc.map Prod.snd, x ∈ vis) →
      ((bfsLoop es fuel vis acc q).map Prod.snd).Nodup
  | 0, vis, acc, q => fun h1 _ => h1
  | fuel + 1, vis, acc, [] => fun h1 _ => h1
  | fuel + 1, vis, acc, v :: q => by
    intro h1 h2
    simp only [bfsLoop]
    have h := bfsVisit_inv v (succsOf es v) vis acc q h1 h2
    exact bfsLoop_inv es fuel _ _ _ h.1 h.2.1

/-- C10: for every graph and start task, the edge list returned by the
breadth-first traversal contains each node as the target of at most one
edge: the targets of the returned (tree) edges are pairwise distinct,
so edges into an already-visited node never appear. -/
theorem perform_bfs_tree_targets_nodup (g : DiGraph) (s : String) :
    ((perform_bfs g s).map Prod.snd).Nodup := by
  unfold perform_bfs bfs_edges
  exact bfsLoop_inv g.edges _ [s] [] [s] (by simp) (by simp)

/-- C5: the transformed graph built in step 1 of `find_critical_path`
has exactly the input's nodes and edges, and every transformed edge
`(u, v)` carries the weight `-(duration u)`. -/
theorem negated_copy_matches_input (g : DiGraph) :
    (negatedCopy g).nodes = g.nodes ∧
    plainEdges (negatedCopy g) = g.edges ∧
    (negatedCopy g).wedges =
      g.edges.map (fun e => (e.1, e.2, some (-(durOf g e.1)))) :=
  ⟨rfl, plainEdges_negatedCopy g, negatedCopy_wedges g⟩

/-- C9: the critical-path finder does not mutate its input graph: the
caller's graph object after the stateful run equals the input (same
nodes, durations and edges), and the result agrees with the pure
function — the weight negation only ever touched the internal copy. -/
theorem find_critical_path_state_frame (g : DiGraph) :
    (find_critical_path_state g).2 = g ∧
    (find_critical_path_state g).1 = find_critical_path g := by
  simp only [find_critical_path_state, find_critical_path, weightLoopSt_eq,
    negatedCopy, List.nil_append]
  exact ⟨trivial, trivial⟩

/-! ### Dijkstra soundness -/

theorem alookup_cons_isSome {α : Type} {l : List (String × α)} {x k : String}
    {a : α} (h : (alookup l x).isSome) : (alookup ((k, a) :: l) x).isSome := by
  rw [alookup_cons]
  by_cases hk : k = x <;> simp [hk, h]

theorem relax_pres {es : List (String × String)} {src v : String}
    (dist : List (String × Int)) (d : Int) (pv : List String)
    (hpv : Walk es src v pv) :
    ∀ (succ seen : List (String × Int)) (paths : List (String × List String))
      (fringe : List (Int × Nat × String)) (c : Nat),
      (∀ x ∈ succ, (v, x.1) ∈ es) →
      PathsInv es src paths → FringeInv paths fringe →
      ∀ {seen' : List (String × Int)} {paths' : List (String × List String)}
        {fringe' : List (Int × Nat × String)} {c' : Nat},
        relax dist d pv succ seen paths fringe c = some (seen', paths', fringe', c') →
        PathsInv es src paths' ∧ FringeInv paths' fringe'
  | [], seen, paths, fringe, c => by
    intro _ hp hf seen' paths' fringe' c' h
    simp only [relax, Option.some.injEq, Prod.mk.injEq] at h
    obtain ⟨h1, h2, h3, _⟩ := h
    subst h1; subst h2; subst h3
    exact ⟨hp, hf⟩
  | (u, wt) :: rest, seen, paths, fringe, c => by
    intro hsucc hp hf seen' paths' fringe' c' h
    have hedge : (v, u) ∈ es := hsucc (u, wt) (List.mem_cons_self _ _)
    have hsucc' : ∀ x ∈ rest, (v, x.1) ∈ es :=
      fun x hx => hsucc x (List.mem_cons_of_mem _ hx)
    simp only [relax] at h
    cases hdu : alookup dist u with
    | some du =>
      rw [hdu] at h
      simp only at h
      by_cases hlt : d + wt < du
      · rw [if_pos hlt] at h; exact absurd h (by simp)
      · rw [if_neg hlt] at h
        exact relax_pres dist d pv hpv rest seen paths fringe c hsucc' hp hf h
    | none =>
      rw [hdu] at h
      simp only at h
      by_cases himp : (match alookup seen u with
          | none => true
          | some su => decide (d + wt < su)) = true
      · rw [if_pos himp] at h
        have hp' : PathsInv es src ((u, pv ++ [u]) :: paths) := by
          intro u' q hq
          rw [alookup_cons] at hq
          by_cases hu : u = u'
          · rw [if_pos hu] at hq
            obtain rfl : pv ++ [u] = q := by simpa using hq
            rw [← hu]
            exact Walk.snoc hpv hedge
          · rw [if_neg hu] at hq
            exact hp u' q hq
        have hf' : FringeInv ((u, pv ++ [u]) :: paths) (fringe ++ [(d + wt, c, u)]) := by
          intro t ht
          rcases List.mem_append.mp ht with ht | ht
          · exact alookup_cons_isSome (hf t ht)
          · simp only [List.mem_singleton] at ht
            subst ht
            rw [alookup_cons]
            simp
        exact relax_pres dist d pv hpv rest _ _ _ _ hsucc' hp' hf' h
      · rw [if_neg himp] at h
        exact relax_pres dist d pv hpv rest seen paths fringe c hsucc' hp hf h

theorem dijkstraLoop_sound (w : WGraph) (target src : String) :
    ∀ (fuel : Nat) (dist seen : List (String × Int))
      (paths : List (String × List String))
      (fringe : List (Int × Nat × String)) (c : Nat),
      PathsInv (plainEdges w) src paths → FringeInv paths fringe →
      ∀ {dist' : List (String × Int)} {paths' : List (String × List String)},
        dijkstraLoop w target fuel dist seen paths fringe c = .done dist' paths' →
        PathsInv (plainEdges w) src paths'
  | 0, dist, seen, paths, fringe, c => by
    intro hp hf dist' paths' h
    simp [dijkstraLoop] at h
  | fuel + 1, dist, seen, paths, fringe, c => by
    intro hp hf dist' paths' h
    simp only [dijkstraLoop] at h
    cases hpop : popMin fringe with
    | none =>
      rw [hpop] at h
      simp only [LoopRes.done.injEq] at h
      rw [← h.2]
      exact hp
    | some er =>
      obtain ⟨e, rest⟩ := er
      rw [hpop] at h
      simp only at h
      have hfr : FringeInv paths rest :=
        fun t ht => hf t (popMin_rest_subset hpop ht)
      by_cases hv : (alookup dist e.2.2).isSome
      · rw [if_pos hv] at h
        exact dijkstraLoop_sound w target src fuel dist seen paths rest c hp hfr h
      · rw [if_neg hv] at h
        by_cases ht : e.2.2 = target
        · rw [if_pos ht] at h
          simp only [LoopRes.done.injEq] at h
          rw [← h.2]
          exact hp
        · rw [if_neg ht] at h
          have hev : (alookup paths e.2.2).isSome := hf e (popMin_mem hpop)
          obtain ⟨pv, hpv⟩ : ∃ q, alookup paths e.2.2 = some q :=
            Option.isSome_iff_exists.mp hev
          have hwalk : Walk (plainEdges w) src e.2.2 pv := hp _ _ hpv
          have hgd : (alookup paths e.2.2).getD [] = pv := by rw [hpv]; rfl
          cases hrel : relax ((e.2.2, e.1) :: dist) e.1
              ((alookup paths e.2.2).getD []) (wsuccs w e.2.2) seen paths rest c with
          | none => rw [hrel] at h; exact absurd h (by simp)
          | some st =>
            obtain ⟨seen', paths', fringe', c'⟩ := st
            rw [hrel] at h
            simp only at h
            rw [hgd] at hrel
            have hsucc : ∀ x ∈ wsuccs w e.2.2, (e.2.2, x.1) ∈ plainEdges w := by
              intro x hx
              obtain ⟨x1, x2⟩ := x
              exact mem_wsuccs hx
            have hinv := relax_pres _ _ _ hwalk _ _ _ _ _ hsucc hp hfr hrel
            exact dijkstraLoop_sound w target src fuel _ _ _ _ _ hinv.1 hinv.2 h

theorem dijkstra_path_walk {w : WGraph} {source target : String} {p : List String}
    (h : dijkstra_path w source target = .found p) :
    Walk (plainEdges w) source target p := by
  unfold dijkstra_path at h
  by_cases hst : source = target
  · rw [if_pos hst] at h
    simp only [PathResult.found.injEq] at h
    rw [← h, ← hst]
    exact Walk.single source
  · rw [if_neg hst] at h
    by_cases hmem : source ∈ w.nodes.map Prod.fst
    · rw [if_pos hmem] at h
      have hp0 : PathsInv (plainEdges w) source [(source, [source])] := by
        intro u q hq
        rw [alookup_cons] at hq
        by_cases hu : source = u
        · rw [if_pos hu] at hq
          obtain rfl : [source] = q := by simpa using hq
          rw [← hu]
          exact Walk.single source
        · rw [if_neg hu] at hq
          simp [alookup] at hq
      have hf0 : FringeInv [(source, [source])] [(0, 0, source)] := by
        intro t ht
        simp only [List.mem_singleton] at ht
        subst ht
        rw [alookup_cons]
        simp
      cases hloop : dijkstraLoop w target (w.wedges.length + 2) [] [(source, 0)]
          [(source, [source])] [(0, 0, source)] 1 with
      | fuelOut => rw [hloop] at h; exact absurd h (by simp)
      | contra => rw [hloop] at h; exact absurd h (by simp)
      | done dist paths =>
        rw [hloop] at h
        simp only at h
        have hps := dijkstraLoop_sound w target source _ _ _ _ _ _ hp0 hf0 hloop
        cases hdt : alookup dist target with
        | none => rw [hdt] at h; exact absurd h (by simp)
        | some dd =>
          rw [hdt] at h
          simp only at h
          cases hpt : alookup paths target with
          | none => rw [hpt] at h; exact absurd h (by simp)
          | some q =>
            rw [hpt] at h
            simp only [PathResult.found.injEq] at h
            rw [← h]
            exact hps _ _ hpt
    · rw [if_neg hmem] at h
      exact absurd h (by simp)

theorem find_critical_path_sound {g : DiGraph} {p : List String} {tot : Int}
    (h : find_critical_path g = .ok p tot) :
    Walk g.edges "Start" "End" p ∧ tot = totalDur g p := by
  simp only [find_critical_path] at h
  cases hd : dijkstra_path (negatedCopy g) "Start" "End" with
  | found q =>
    rw [hd] at h
    simp only [CPResult.ok.injEq] at h
    obtain ⟨hq, htot⟩ := h
    have hw := dijkstra_path_walk hd
    rw [plainEdges_negatedCopy] at hw
    subst hq
    exact ⟨hw, htot.symm⟩
  | noPath => rw [hd] at h; exact absurd h (by simp)
  | nodeNotFound => rw [hd] at h; exact absurd h (by simp)
  | contra => rw [hd] at h; exact absurd h (by simp)
  | outOfFuel => rw [hd] at h; exact absurd h (by simp)

/-! ### Claims about the finder's output -/

/-- C1: the spec requires the returned total to be the maximum path
duration on every valid acyclic task graph; on `gA` the code stops at
`End` as soon as the heap pops it and returns the path through `A` with
total `10`, while the true maximum over all `Start`→`End` paths is
`101` (via `B` and `C`).  The code, not the claim, is at fault: the
early Dijkstra stop is unsound on the negated (negative) weights. -/
theorem dijkstra_on_dag_misses_longest_path :
    find_critical_path gA = .ok ["Start", "A", "End"] 10 ∧
    maxPathDuration gA "Start" "End" = some 101 ∧ (10 : Int) ≠ 101 := by
  refine ⟨by decide, by decide, by decide⟩

/-- C2: on the hardcoded 23-task dataset the finder returns a total
duration of exactly `94`, and the returned sequence contains "Calendar
Rubber Sheets", "Injection Molding Operation" and "Paint & Finishing"
in that relative order. -/
theorem critical_path_of_hardcoded_dataset :
    find_critical_path G = .ok criticalPathTasks 94 ∧
    List.Sublist ["Calendar Rubber Sheets", "Injection Molding Operation",
      "Paint & Finishing"] criticalPathTasks := by
  refine ⟨by decide, by decide⟩

/-- C3 counterexample: on the cyclic graph `gCyc` (cycle `B → C → B`)
the finder does not fail with any cycle error — it returns the path
`Start → End` with total duration `0`. -/
theorem cyclic_graph_returns_path :
    HasCycle gCyc ∧ find_critical_path gCyc = .ok ["Start", "End"] 0 := by
  constructor
  · refine ⟨"B", ["B", "C", "B"], ?_, by decide⟩
    have h1 : Walk gCyc.edges "B" "C" (["B"] ++ ["C"]) :=
      Walk.snoc (Walk.single "B") (by decide)
    have h2 : Walk gCyc.edges "B" "B" ((["B"] ++ ["C"]) ++ ["B"]) :=
      Walk.snoc h1 (by decide)
    simpa using h2
  · decide

/-- C4 counterexample: on `gUnreach` the end task is unreachable from
the start task, yet the finder fails with the contradictory-paths
error (networkx's `ValueError`), not with `NoPathError`. -/
theorem unreachable_end_contradictory_error :
    find_critical_path gUnreach = .contra ∧
    ¬ Reach gUnreach.edges "Start" "End" := by
  constructor
  · decide
  · intro hr
    rcases hr.cases_tail with heq | ⟨c, _, hc⟩
    · exact absurd heq (by decide)
    · simp [gUnreach] at hc

/-- C4: whenever the end task is unreachable from the start task by
directed edges, the finder never returns a path: any returned path is a
directed walk from start to end, which would witness reachability. -/
theorem unreachable_end_never_returns_path {g : DiGraph}
    (h : ¬ Reach g.edges "Start" "End") :
    ∀ (p : List String) (tot : Int), find_critical_path g ≠ .ok p tot := by
  intro p tot hok
  exact h (find_critical_path_sound hok).1.reach

theorem unreachable_end_never_returns_path_witness :
    ¬ Reach gNoPath.edges "Start" "End" ∧
    ∀ (p : List String) (tot : Int), find_critical_path gNoPath ≠ .ok p tot := by
  have hnr : ¬ Reach gNoPath.edges "Start" "End" := by
    intro hr
    rcases hr.cases_head with heq | ⟨c, hc, _⟩
    · exact absurd heq (by decide)
    · simp [gNoPath] at hc
  exact ⟨hnr, unreachable_end_never_returns_path hnr⟩

/-- C6: whenever the finder succeeds, the returned sequence begins with
the start task and ends with the end task. -/
theorem critical_path_endpoints {g : DiGraph} {p : List String} {tot : Int}
    (h : find_critical_path g = .ok p tot) :
    p.head? = some "Start" ∧ p.getLast? = some "End" :=
  ⟨(find_critical_path_sound h).1.head_eq, (find_critical_path_sound h).1.last_eq⟩

theorem critical_path_endpoints_witness :
    find_critical_path gLine = .ok ["Start", "Mid", "End"] 5 ∧
    (["Start", "Mid", "End"].head? = some "Start" ∧
     ["Start", "Mid", "End"].getLast? = some "End") :=
  ⟨by decide, @critical_path_endpoints gLine ["Start", "Mid", "End"] 5 (by decide)⟩

theorem walk_nodup {es : List (String × String)} {ord : String → Nat}
    (hord : ∀ e ∈ es, ord e.1 < ord e.2) {s t : String} {p : List String}
    (h : Walk es s t p) : p.Nodup := by
  haveI : IsTrans String (fun a b => ord a < ord b) :=
    ⟨fun a b c hab hbc => Nat.lt_trans hab hbc⟩
  have hc : List.Chain' (fun a b => ord a < ord b) p :=
    (h.chain_edges).imp (fun a b hab => hord (a, b) hab)
  have hp := List.chain'_iff_pairwise.mp hc
  exact hp.imp fun hab heq => absurd (heq ▸ hab) (lt_irrefl _)

/-- C7: on every acyclic task graph, a successful run returns a
sequence without repeated task names, so each task's duration is
counted at most once in the returned total. -/
theorem critical_path_tasks_nodup {g : DiGraph} {p : List String} {tot : Int}
    (hacyc : IsAcyclic g) (h : find_critical_path g = .ok p tot) : p.Nodup := by
  obtain ⟨ord, hord⟩ := hacyc
  exact walk_nodup hord (find_critical_path_sound h).1

theorem critical_path_tasks_nodup_witness :
    IsAcyclic gLine ∧ find_critical_path gLine = .ok ["Start", "Mid", "End"] 5 ∧
    (["Start", "Mid", "End"] : List String).Nodup := by
  have ha : IsAcyclic gLine := ⟨ordLine, by decide⟩
  exact ⟨ha, by decide,
    @critical_path_tasks_nodup gLine ["Start", "Mid", "End"] 5 ha (by decide)⟩

/-! ### Termination of the Dijkstra loop -/

theorem relax_fringe_length (dist : List (String × Int)) (d : Int) (pv : List String) :
    ∀ (succ seen : List (String × Int)) (paths : List (String × List String))
      (fringe : List (Int × Nat × String)) (c : Nat)
      (seen' : List (String × Int)) (paths' : List (String × List String))
      (fringe' : List (Int × Nat × String)) (c' : Nat),
      relax dist d pv succ seen paths fringe c = some (seen', paths', fringe', c') →
      fringe'.length ≤ fringe.length + succ.length
  | [], seen, paths, fringe, c, seen', paths', fringe', c' => by
    intro h
    simp only [relax, Option.some.injEq, Prod.mk.injEq] at h
    obtain ⟨_, _, h3, _⟩ := h
    simp [← h3]
  | (u, wt) :: rest, seen, paths, fringe, c, seen', paths', fringe', c' => by
    intro h
    simp only [relax] at h
    cases hdu : alookup dist u with
    | some du =>
      rw [hdu] at h
      simp only at h
      by_cases hlt : d + wt < du
      · rw [if_pos hlt] at h; exact absurd h (by simp)
      · rw [if_neg hlt] at h
        have := relax_fringe_length dist d pv rest seen paths fringe c
          seen' paths' fringe' c' h
        simp only [List.length_cons]
        omega
    | none =>
      rw [hdu] at h
      simp only at h
      by_cases himp : (match alookup seen u with
          | none => true
          | some su => decide (d + wt < su)) = true
      · rw [if_pos himp] at h
        have := relax_fringe_length dist d pv rest _ _ _ _
          seen' paths' fringe' c' h
        simp only [List.length_append, List.length_singleton, List.length_cons,
          List.length_nil] at this ⊢
        omega
      · rw [if_neg himp] at h
        have := relax_fringe_length dist d pv rest seen paths fringe c
          seen' paths' fringe' c' h
        simp only [List.length_cons]
        omega

theorem filt_cons_aux (dist : List (String × Int)) (v : String) (d : Int)
    (hv : alookup dist v = none) :
    ∀ es : List (String × String × Option Int),
      (es.filter (fun e => (alookup ((v, d) :: dist) e.1).isNone)).length +
        (es.filter (fun e => e.1 = v)).length =
      (es.filter (fun e => (alookup dist e.1).isNone)).length
  | [] => rfl
  | e :: rest => by
    have ih := filt_cons_aux dist v d hv rest
    by_cases hev : e.1 = v
    · have h1 : alookup ((v, d) :: dist) e.1 = some d := by
        rw [alookup_cons, if_pos hev.symm]
      have h2 : alookup dist e.1 = none := hev ▸ hv
      have h3 : alookup ((v, d) :: dist) v = some d := by
        rw [alookup_cons, if_pos rfl]
      simp [List.filter_cons, h1, h2, h3, hv, hev]
      omega
    · have h1 : alookup ((v, d) :: dist) e.1 = alookup dist e.1 := by
        rw [alookup_cons, if_neg (fun hx => hev hx.symm)]
      simp only [List.filter_cons, h1]
      cases hx : (alookup dist e.1).isNone
      · simp [hx, hev]
        omega
      · simp [hx, hev]
        omega

theorem pendCount_cons (w : WGraph) {dist : List (String × Int)} {v : String}
    (d : Int) (hv : alookup dist v = none) :
    pendCount w ((v, d) :: dist) + outdegCount w v = pendCount w dist :=
  filt_cons_aux dist v d hv w.wedges

theorem wsuccs_length_outdeg (w : WGraph) (v : String) :
    (wsuccs w v).length = outdegCount w v := by
  simp [wsuccs, outdegCount]

theorem dijkstraLoop_no_fuelOut (w : WGraph) (target : String) :
    ∀ (fuel : Nat) (dist seen : List (String × Int))
      (paths : List (String × List String))
      (fringe : List (Int × Nat × String)) (c : Nat),
      fringe.length + pendCount w dist < fuel →
      dijkstraLoop w target fuel dist seen paths fringe c ≠ .fuelOut
  | 0, dist, seen, paths, fringe, c => by
    intro hm
    omega
  | fuel + 1, dist, seen, paths, fringe, c => by
    intro hm h
    simp only [dijkstraLoop] at h
    cases hpop : popMin fringe with
    | none => rw [hpop] at h; simp at h
    | some er =>
      obtain ⟨e, rest⟩ := er
      rw [hpop] at h
      simp only at h
      have hlen := popMin_rest_length hpop
      by_cases hv : (alookup dist e.2.2).isSome
      · rw [if_pos hv] at h
        exact dijkstraLoop_no_fuelOut w target fuel dist seen paths rest c
          (by omega) h
      · rw [if_neg hv] at h
        by_cases ht : e.2.2 = target
        · rw [if_pos ht] at h; simp at h
        · rw [if_neg ht] at h
          cases hrel : relax ((e.2.2, e.1) :: dist) e.1
              ((alookup paths e.2.2).getD []) (wsuccs w e.2.2) seen paths rest c with
          | none => rw [hrel] at h; simp at h
          | some st =>
            obtain ⟨seen', paths', fringe', c'⟩ := st
            rw [hrel] at h
            simp only at h
            have hfl := relax_fringe_length _ _ _ _ _ _ _ _ _ _ _ _ hrel
            have hnone : alookup dist e.2.2 = none := by
              cases hx : alookup dist e.2.2 with
              | none => rfl
              | some dd => rw [hx] at hv; simp at hv
            have hpend := pendCount_cons w e.1 hnone
            have hws := wsuccs_length_outdeg w e.2.2
            exact dijkstraLoop_no_fuelOut w target fuel _ seen' paths' fringe' c'
              (by omega) h

theorem dijkstra_path_no_outOfFuel (w : WGraph) (source target : String) :
    dijkstra_path w source target ≠ .outOfFuel := by
  unfold dijkstra_path
  by_cases hst : source = target
  · rw [if_pos hst]; simp
  · rw [if_neg hst]
    by_cases hmem : source ∈ w.nodes.map Prod.fst
    · rw [if_pos hmem]
      cases hloop : dijkstraLoop w target (w.wedges.length + 2) [] [(source, 0)]
          [(source, [source])] [(0, 0, source)] 1 with
      | fuelOut =>
        exfalso
        refine dijkstraLoop_no_fuelOut w target (w.wedges.length + 2) [] [(source, 0)]
          [(source, [source])] [(0, 0, source)] 1 ?_ hloop
        have : pendCount w [] ≤ w.wedges.length := by
          simpa [pendCount] using List.length_filter_le _ w.wedges
        simp only [List.length_singleton]
        omega
      | contra => simp
      | done dist paths =>
        cases hdt : alookup dist target with
        | none => simp [hdt]
        | some dd =>
          cases hpt : alookup paths target with
          | none => simp [hdt, hpt]
          | some q => simp [hdt, hpt]
    · rw [if_neg hmem]; simp

theorem find_critical_path_no_outOfFuel (g : DiGraph) :
    find_critical_path g ≠ .outOfFuel := by
  simp only [find_critical_path]
  cases hd : dijkstra_path (negatedCopy g) "Start" "End" with
  | found q => simp
  | noPath => simp
  | nodeNotFound => simp
  | contra => simp
  | outOfFuel => exact absurd hd (dijkstra_path_no_outOfFuel _ _ _)

theorem hasCycle_gCyc : HasCycle gCyc := by
  refine ⟨"B", ["B", "C", "B"], ?_, by decide⟩
  have h1 : Walk gCyc.edges "B" "C" (["B"] ++ ["C"]) :=
    Walk.snoc (Walk.single "B") (by decide)
  have h2 : Walk gCyc.edges "B" "B" ((["B"] ++ ["C"]) ++ ["B"]) :=
    Walk.snoc h1 (by decide)
  simpa using h2

/-- C3: on a cyclic input graph the finder does terminate — the loop
finalizes each popped node at most once, so the edge-count fuel bound
is never exhausted — but it does not fail with a `CycleError` (no such
failure exists): it may return a path and total duration, as the
counterexample shows, or one of the no-path / contradictory-paths
errors. -/
theorem finder_terminates_on_cyclic_input (g : DiGraph) (hcyc : HasCycle g) :
    find_critical_path g ≠ .outOfFuel :=
  find_critical_path_no_outOfFuel g

theorem finder_terminates_on_cyclic_input_witness :
    HasCycle gCyc ∧ find_critical_path gCyc ≠ .outOfFuel :=
  ⟨hasCycle_gCyc, finder_terminates_on_cyclic_input gCyc hasCycle_gCyc⟩

/-! ### Simple path structure -/

theorem chain'_mem_pred {R : String → String → Prop} :
    ∀ (p : List String) (v : String), List.Chain' R p → v ∈ p →
      p.head? ≠ some v → ∃ x, R x v
  | [], v => by intro _ hv _; simp at hv
  | a :: rest, v => by
    intro hc hv hh
    have hva : v ≠ a := by
      intro he
      exact hh (by simp [he])
    have hvr : v ∈ rest := by
      rcases List.mem_cons.mp hv with h | h
      · exact absurd h hva
      · exact h
    cases rest with
    | nil => simp at hvr
    | cons b rest' =>
      rcases List.chain'_cons.mp hc with ⟨hab, hc'⟩
      by_cases hvb : v = b
      · exact ⟨a, hvb ▸ hab⟩
      · refine chain'_mem_pred (b :: rest') v hc' hvr ?_
        simp only [List.head?_cons, ne_eq, Option.some.injEq]
        exact fun he => hvb he.symm

theorem chain'_mem_succ {R : String → String → Prop} :
    ∀ (p : List String) (v : String), List.Chain' R p → v ∈ p →
      p.getLast? ≠ some v → ∃ y, R v y
  | [], v => by intro _ hv _; simp at hv
  | a :: rest, v => by
    intro hc hv hl
    cases rest with
    | nil =>
      simp at hv
      exact absurd (by simp [hv]) hl
    | cons b rest' =>
      rcases List.chain'_cons.mp hc with ⟨hab, hc'⟩
      by_cases hva : v = a
      · exact ⟨b, hva ▸ hab⟩
      · have hvr : v ∈ b :: rest' := by
          rcases List.mem_cons.mp hv with h | h
          · exact absurd h hva
          · exact h
        exact chain'_mem_succ (b :: rest') v hc' hvr
          (by rw [List.getLast?_cons_cons] at hl; exact hl)

theorem mem_simplePathsAux {es : List (String × String)} :
    ∀ (fuel : Nat) (cur target : String) (visited : List String)
      (p : List String),
      p ∈ simplePathsAux es fuel cur target visited →
      List.Chain' (fun a b => (a, b) ∈ es) p ∧
      p.head? = some cur ∧ p.getLast? = some target
  | 0, cur, target, visited, p => by
    intro h
    simp only [simplePathsAux] at h
    by_cases hct : cur = target
    · rw [if_pos hct] at h
      simp only [List.mem_singleton] at h
      subst h
      exact ⟨by simp, rfl, by simp [hct]⟩
    · rw [if_neg hct] at h
      simp at h
  | fuel + 1, cur, target, visited, p => by
    intro h
    simp only [simplePathsAux] at h
    by_cases hct : cur = target
    · rw [if_pos hct] at h
      simp only [List.mem_singleton] at h
      subst h
      exact ⟨by simp, rfl, by simp [hct]⟩
    · rw [if_neg hct] at h
      simp only [List.mem_flatMap, List.mem_map, List.mem_filter] at h
      obtain ⟨u, ⟨hu, _⟩, q, hq, rfl⟩ := h
      obtain ⟨hch, hhd, hlst⟩ := mem_simplePathsAux fuel u target (cur :: visited) q hq
      have hcu : (cur, u) ∈ es := mem_succsOf.mp hu
      refine ⟨?_, rfl, ?_⟩
      · rw [List.chain'_cons']
        refine ⟨fun y hy => ?_, hch⟩
        rw [hhd] at hy
        simp at hy
        subst hy
        exact hcu
      · cases q with
        | nil => simp at hhd
        | cons b q' => rw [List.getLast?_cons_cons]; exact hlst

theorem simplePathsAux_self (es : List (String × String)) (c : String)
    (visited : List String) :
    ∀ fuel, simplePathsAux es fuel c c visited = [[c]]
  | 0 => by simp [simplePathsAux]
  | fuel + 1 => by simp [simplePathsAux]

theorem simplePathsAux_abc {es : List (String × String)} {a b c : String}
    (hac : a ≠ c) (hbc : b ≠ c) (hca : c ≠ a)
    (ha : succsOf es a = [b]) (hb : succsOf es b = [c]) (fuel : Nat) :
    simplePathsAux es (fuel + 2) a c [] = [[a, b, c]] := by
  have h2 : simplePathsAux es fuel c c [b, a] = [[c]] := simplePathsAux_self es c _ fuel
  have e2 : simplePathsAux es (fuel + 1) b c [a] =
      if b = c then [[b]] else
        ((succsOf es b).filter (fun u => decide (u ∉ [a]))).flatMap
          (fun u => (simplePathsAux es fuel u c [b, a]).map (fun p => b :: p)) := rfl
  have h1 : simplePathsAux es (fuel + 1) b c [a] = [[b, c]] := by
    rw [e2, if_neg hbc, hb,
      show List.filter (fun u => decide (u ∉ [a])) [c] = [c] by simp [hca]]
    simp [h2]
  have e1 : simplePathsAux es (fuel + 2) a c [] =
      if a = c then [[a]] else
        ((succsOf es a).filter (fun u => decide (u ∉ ([] : List String)))).flatMap
          (fun u => (simplePathsAux es (fuel + 1) u c [a]).map (fun p => a :: p)) := rfl
  rw [e1, if_neg hac, ha,
    show List.filter (fun u => decide (u ∉ ([] : List String))) [b] = [b] by simp]
  simp [h1]

/-! ### Chain graphs -/

theorem nodeNames_chainGraph (ns : List String) :
    nodeNames (chainGraph ns) = ns := by
  simp only [nodeNames, chainGraph, List.map_map]
  exact List.map_id'' (fun s => rfl) ns

theorem chainGraph_edges (ns : List String) :
    (chainGraph ns).edges = ns.zip ns.tail := rfl

theorem mem_chainEdges_src :
    ∀ (ns : List String) (x y : String), (x, y) ∈ ns.zip ns.tail →
      x ∈ ns.dropLast
  | [], x, y => by intro h; simp at h
  | [a], x, y => by intro h; simp at h
  | a :: b :: t, x, y => by
    intro h
    rcases List.mem_cons.mp h with h | h
    · have : x = a := congrArg Prod.fst h
      simp [this, List.dropLast_cons₂]
    · have := mem_chainEdges_src (b :: t) x y h
      simp only [List.dropLast_cons₂]
      exact List.mem_cons_of_mem _ this

theorem succsOf_zip_eq_nil {ns : List String} {x : String} (hx : x ∉ ns) :
    succsOf (ns.zip ns.tail) x = [] := by
  have : (ns.zip ns.tail).filter (fun e => e.1 = x) = [] := by
    rw [List.filter_eq_nil]
    intro e he hex
    have h1 : e.1 ∈ ns := (List.of_mem_zip he).1
    have : e.1 = x := by simpa using hex
    exact hx (this ▸ h1)
  simp [succsOf, this]

theorem succsOf_chain (ns : List String) (hnd : ns.Nodup) :
    ∀ (i : Nat) (h : i + 1 < ns.length) (h0 : i < ns.length),
      succsOf (ns.zip ns.tail) (ns.get ⟨i, h0⟩) = [ns.get ⟨i + 1, h⟩] := by
  induction ns with
  | nil => intro i h h0; simp at h
  | cons a rest ih =>
    intro i h h0
    cases rest with
    | nil => simp at h
    | cons b rest' =>
      have hzip : (a :: b :: rest').zip (b :: rest') =
          (a, b) :: ((b :: rest').zip rest') := rfl
      cases i with
      | zero =>
        have hnotin : a ∉ b :: rest' := (List.nodup_cons.mp hnd).1
        have hnil : succsOf ((b :: rest').zip rest') a = [] :=
          succsOf_zip_eq_nil hnotin
        show succsOf ((a :: b :: rest').zip (b :: rest')) a = [b]
        rw [hzip]
        simp only [succsOf, List.filter_cons] at hnil ⊢
        simp only [decide_True, if_true, List.map_cons]
        rw [show ((b :: rest').zip rest').filter (fun e => decide (e.1 = a)) = [] by
          simpa [succsOf] using hnil]
        simp
      | succ j =>
        have hnotin : a ∉ b :: rest' := (List.nodup_cons.mp hnd).1
        have hget : (b :: rest').get ⟨j, by simpa using h0⟩ ∈ b :: rest' :=
          List.get_mem _ _ _
        have hne : (b :: rest').get ⟨j, by simpa using h0⟩ ≠ a :=
          fun he => hnotin (he ▸ hget)
        show succsOf ((a :: b :: rest').zip (b :: rest'))
            ((b :: rest').get ⟨j, _⟩) = _
        rw [hzip]
        simp only [succsOf, List.filter_cons]
        rw [if_neg (by simpa using fun he => hne (by simpa using he.symm))]
        have := ih (List.nodup_cons.mp hnd).2 j (by simpa using h) (by simpa using h0)
        simpa [succsOf] using this

/-! ### Betweenness on chains -/

theorem bc_eq_zero (g : DiGraph) (v : String)
    (h : ∀ s t, s ≠ v → t ≠ v → sigmaThrough g s t v = 0) :
    betweenness_centrality g v = 0 := by
  have htot : ((nodeNames g).flatMap
      (fun s => (nodeNames g).map (fun t => pairDep g v s t))).sum = 0 := by
    apply List.sum_eq_zero
    intro x hx
    simp only [List.mem_flatMap, List.mem_map] at hx
    obtain ⟨s, _, t, _, rfl⟩ := hx
    unfold pairDep
    split
    · next hcond =>
      rw [h s t hcond.2.1 hcond.2.2.1]
      simp
    · rfl
  simp only [betweenness_centrality, htot]
  split
  · exact zero_div _
  · rfl

theorem mem_shortestPaths {g : DiGraph} {s t : String} {p : List String}
    (hp : p ∈ shortestPaths g s t) :
    List.Chain' (fun a b => (a, b) ∈ g.edges) p ∧
    p.head? = some s ∧ p.getLast? = some t := by
  have hps : p ∈ simplePaths g s t := by
    have hp' : p ∈ (match ((simplePaths g s t).map List.length).min? with
        | none => ([] : List (List String))
        | some m => (simplePaths g s t).filter (fun q => decide (q.length = m))) := hp
    cases hmin : ((simplePaths g s t).map List.length).min? with
    | none => rw [hmin] at hp'; simp at hp'
    | some m =>
      rw [hmin] at hp'
      exact (List.mem_filter.mp hp').1
  unfold simplePaths at hps
  exact mem_simplePathsAux _ _ _ _ _ hps

theorem sigmaThrough_eq_zero {g : DiGraph} {s t v : String}
    (h : ∀ p ∈ shortestPaths g s t, v ∉ p) : sigmaThrough g s t v = 0 := by
  unfold sigmaThrough
  rw [List.length_eq_zero, List.filter_eq_nil_iff]
  intro p hp
  simp only [decide_eq_true_eq]
  exact h p hp

theorem bc_chain_head (ns : List String) (hnd : ns.Nodup) (hne : 0 < ns.length) :
    betweenness_centrality (chainGraph ns) (ns.get ⟨0, hne⟩) = 0 := by
  apply bc_eq_zero
  intro s t hs _
  apply sigmaThrough_eq_zero
  intro p hp hvp
  obtain ⟨hch, hhd, _⟩ := mem_shortestPaths hp
  obtain ⟨x, hx⟩ := chain'_mem_pred p _ hch hvp (by
    rw [hhd]
    simp only [ne_eq, Option.some.injEq]
    exact hs)
  rw [chainGraph_edges] at hx
  have hmem := (List.of_mem_zip hx).2
  cases ns with
  | nil => simp at hne
  | cons a rest =>
    have hget : (a :: rest).get ⟨0, hne⟩ = a := rfl
    rw [hget] at hmem
    simp only [List.tail_cons] at hmem
    exact (List.nodup_cons.mp hnd).1 hmem

theorem getLast_not_mem_dropLast (ns : List String) (hnd : ns.Nodup)
    (hne : ns ≠ []) : ns.getLast hne ∉ ns.dropLast := by
  intro hmem
  have hsplit := List.dropLast_append_getLast hne
  rw [← hsplit] at hnd
  rw [List.nodup_append] at hnd
  exact hnd.2.2 hmem (List.mem_singleton_self _)

theorem bc_chain_last (ns : List String) (hnd : ns.Nodup) (hne : 0 < ns.length) :
    betweenness_centrality (chainGraph ns)
      (ns.get ⟨ns.length - 1, by omega⟩) = 0 := by
  have hne' : ns ≠ [] := List.ne_nil_of_length_pos hne
  rw [show ns.get ⟨ns.length - 1, by omega⟩ = ns.getLast hne' from
    (List.getLast_eq_get ns hne').symm]
  apply bc_eq_zero
  intro s t _ ht
  apply sigmaThrough_eq_zero
  intro p hp hvp
  obtain ⟨hch, _, hlst⟩ := mem_shortestPaths hp
  obtain ⟨y, hy⟩ := chain'_mem_succ p _ hch hvp (by
    rw [hlst]
    simp only [ne_eq, Option.some.injEq]
    exact ht)
  rw [chainGraph_edges] at hy
  exact getLast_not_mem_dropLast ns hnd hne' (mem_chainEdges_src ns _ _ hy)

theorem pairDep_nonneg (g : DiGraph) (v s t : String) : 0 ≤ pairDep g v s t := by
  unfold pairDep
  split
  · positivity
  · exact le_refl 0

theorem bc_chain_internal_pos (ns : List String) (hnd : ns.Nodup) (j : Nat)
    (hj : j + 2 < ns.length) :
    0 < betweenness_centrality (chainGraph ns) (ns.get ⟨j + 1, by omega⟩) := by
  have hget_ne : ∀ (i1 i2 : Nat) (h1 : i1 < ns.length) (h2 : i2 < ns.length),
      i1 ≠ i2 → ns.get ⟨i1, h1⟩ ≠ ns.get ⟨i2, h2⟩ := by
    intro i1 i2 h1 h2 hne he
    have := (hnd.get_inj_iff).mp he
    exact hne (congrArg Fin.val this)
  set g := chainGraph ns with hg
  have ha1 : j < ns.length := by omega
  have hb1 : j + 1 < ns.length := by omega
  set a := ns.get ⟨j, ha1⟩ with hadef
  set b := ns.get ⟨j + 1, hb1⟩ with hbdef
  set c := ns.get ⟨j + 2, hj⟩ with hcdef
  have hac : a ≠ c := hget_ne _ _ _ _ (by omega)
  have hbc : b ≠ c := hget_ne _ _ _ _ (by omega)
  have hca : c ≠ a := hget_ne _ _ _ _ (by omega)
  have hab : a ≠ b := hget_ne _ _ _ _ (by omega)
  have hsa : succsOf (ns.zip ns.tail) a = [b] := succsOf_chain ns hnd j hb1 ha1
  have hsb : succsOf (ns.zip ns.tail) b = [c] := succsOf_chain ns hnd (j + 1) hj hb1
  have hsp : simplePaths g a c = [[a, b, c]] := by
    obtain ⟨k, hk⟩ : ∃ k, (nodeNames g).length = k + 2 :=
      ⟨(nodeNames g).length - 2, by rw [nodeNames_chainGraph]; omega⟩
    unfold simplePaths
    rw [hk]
    exact simplePathsAux_abc hac hbc hca hsa hsb k
  have hshort : shortestPaths g a c = [[a, b, c]] := by
    simp only [shortestPaths, hsp]
    rfl
  have hsigma : sigma g a c = 1 := by
    simp only [sigma, hshort]
    rfl
  have hsigT : sigmaThrough g a c b = 1 := by
    simp only [sigmaThrough, hshort, List.filter]
    simp
  have hpd : pairDep g b a c = 1 := by
    unfold pairDep
    rw [if_pos ⟨hac, hab, hbc.symm, by rw [hsigma]; exact one_ne_zero⟩]
    rw [hsigT, hsigma]
    norm_num
  have hmemList : pairDep g b a c ∈
      ((nodeNames g).flatMap fun s => (nodeNames g).map fun t => pairDep g b s t) := by
    apply List.mem_flatMap.mpr
    refine ⟨a, ?_, List.mem_map.mpr ⟨c, ?_, rfl⟩⟩
    · rw [nodeNames_chainGraph]; exact List.get_mem _ _ _
    · rw [nodeNames_chainGraph]; exact List.get_mem _ _ _
  have hsum : 1 ≤ ((nodeNames g).flatMap
      fun s => (nodeNames g).map fun t => pairDep g b s t).sum := by
    rw [← hpd]
    exact List.single_le_sum (fun x _ => by
      simp only [List.mem_flatMap, List.mem_map] at *
      exact le_trans (le_refl 0) (by
        rename_i hx
        obtain ⟨s, _, t, _, rfl⟩ := hx
        exact pairDep_nonneg g b s t)) _ hmemList
  have hn3 : 2 < (nodeNames g).length := by rw [nodeNames_chainGraph]; omega
  simp only [betweenness_centrality, if_pos hn3]
  apply div_pos (lt_of_lt_of_le one_pos hsum)
  have h1 : (1 : ℚ) ≤ ((nodeNames g).length : ℚ) - 2 := by
    have : (3 : ℚ) ≤ ((nodeNames g).length : ℚ) := by exact_mod_cast hn3
    linarith
  nlinarith

/-- C8 counterexample: in the five-task chain `A → B → C → D → E` the
internal tasks are not all assigned equal betweenness values: `B`
scores `1/4` while `C` scores `1/3`. -/
theorem chain_betweenness_not_tied :
    betweenness_centrality chain5 "B" = 1/4 ∧
    betweenness_centrality chain5 "C" = 1/3 ∧
    betweenness_centrality chain5 "B" ≠ betweenness_centrality chain5 "C" := by
  have hnn : nodeNames chain5 = ["A", "B", "C", "D", "E"] := by decide
  have hB : betweenness_centrality chain5 "B" = 1/4 := by
    simp only [betweenness_centrality, hnn, List.length_cons, List.length_nil]
    norm_num
    simp +decide [pairDep]
    rw [show sigmaThrough chain5 "A" "C" "B" = 1 from by decide,
        show sigma chain5 "A" "C" = 1 from by decide,
        show sigmaThrough chain5 "A" "D" "B" = 1 from by decide,
        show sigma chain5 "A" "D" = 1 from by decide,
        show sigmaThrough chain5 "A" "E" "B" = 1 from by decide,
        show sigma chain5 "A" "E" = 1 from by decide,
        show sigmaThrough chain5 "C" "D" "B" = 0 from by decide,
        show sigma chain5 "C" "D" = 1 from by decide,
        show sigmaThrough chain5 "C" "E" "B" = 0 from by decide,
        show sigma chain5 "C" "E" = 1 from by decide,
        show sigmaThrough chain5 "D" "E" "B" = 0 from by decide,
        show sigma chain5 "D" "E" = 1 from by decide]
    norm_num
  have hC : betweenness_centrality chain5 "C" = 1/3 := by
    simp only [betweenness_centrality, hnn, List.length_cons, List.length_nil]
    norm_num
    simp +decide [pairDep]
    rw [show sigmaThrough chain5 "A" "B" "C" = 0 from by decide,
        show sigma chain5 "A" "B" = 1 from by decide,
        show sigmaThrough chain5 "A" "D" "C" = 1 from by decide,
        show sigma chain5 "A" "D" = 1 from by decide,
        show sigmaThrough chain5 "A" "E" "C" = 1 from by decide,
        show sigma chain5 "A" "E" = 1 from by decide,
        show sigmaThrough chain5 "B" "D" "C" = 1 from by decide,
        show sigma chain5 "B" "D" = 1 from by decide,
        show sigmaThrough chain5 "B" "E" "C" = 1 from by decide,
        show sigma chain5 "B" "E" = 1 from by decide,
        show sigmaThrough chain5 "D" "E" "C" = 0 from by decide,
        show sigma chain5 "D" "E" = 1 from by decide]
    norm_num
  refine ⟨hB, hC, ?_⟩
  rw [hB, hC]
  norm_num

/-- C8: in a single directed linear chain of pairwise distinct task
names, every internal task (position `j + 1` with `j + 2 < N`) has
strictly higher betweenness centrality than either endpoint — both
endpoints score `0` while every internal task scores positively.
Internal tasks are not in general tied (see the counterexample), which
is the only part of the original claim that fails. -/
theorem chain_internal_betweenness_above_endpoints (ns : List String)
    (hnd : ns.Nodup) (j : Nat) (hj : j + 2 < ns.length) :
    betweenness_centrality (chainGraph ns) (ns.get ⟨0, by omega⟩) <
      betweenness_centrality (chainGraph ns) (ns.get ⟨j + 1, by omega⟩) ∧
    betweenness_centrality (chainGraph ns) (ns.get ⟨ns.length - 1, by omega⟩) <
      betweenness_centrality (chainGraph ns) (ns.get ⟨j + 1, by omega⟩) := by
  have hpos := bc_chain_internal_pos ns hnd j hj
  constructor
  · rw [bc_chain_head ns hnd (by omega)]
    exact hpos
  · rw [bc_chain_last ns hnd (by omega)]
    exact hpos

theorem chain_internal_betweenness_above_endpoints_witness :
    (["A", "B", "C", "D", "E"] : List String).Nodup ∧
    betweenness_centrality (chainGraph ["A", "B", "C", "D", "E"])
        (["A", "B", "C", "D", "E"].get ⟨0, by decide⟩) <
      betweenness_centrality (chainGraph ["A", "B", "C", "D", "E"])
        (["A", "B", "C", "D", "E"].get ⟨1, by decide⟩) := by
  have hnd : (["A", "B", "C", "D", "E"] : List String).Nodup := by decide
  exact ⟨hnd, (chain_internal_betweenness_above_endpoints
    ["A", "B", "C", "D", "E"] hnd 0 (by decide)).1⟩
